import Mathlib

/-!
Shallow embedding of the gominima/mux router core (`mux.go` / `router.go`).

Strings are modelled as lists of characters (`Str`); all source paths are
ASCII, so Go's byte indices coincide with character indices.  The Go map
`map[string][]Route` is modelled as a function `Str → Option (List Route)`
(`none` = key absent, matching Go's comma-ok idiom), and `map[string]string`
as an association list with overwrite-on-insert (`mapSet`).  Handlers
(`http.Handler`) are opaque to the router: they are modelled as `Nat` ids.
-/

namespace Mux

/-- Strings of the Go source, modelled as lists of characters. -/
abbrev Str := List Char

/-- Character list of a Lean string literal, used for concrete inputs. -/
def str (s : String) : Str := s.toList

/-- Embeds Go `strings.HasPrefix s pre`. -/
def hasPrefixStr : Str → Str → Bool
  | _, [] => true
  | [], _ :: _ => false
  | c :: cs, d :: ds => if c = d then hasPrefixStr cs ds else false

/-- Embeds Go `strings.TrimPrefix s pre`. -/
def trimPrefixStr (s pre : Str) : Str :=
  if hasPrefixStr s pre then s.drop pre.length else s

/-- Embeds Go `strings.Split s "/"` (the separator is the single slash). -/
def splitSlash : Str → List Str
  | [] => [[]]
  | c :: cs =>
    if c = '/' then [] :: splitSlash cs
    else
      match splitSlash cs with
      | [] => [[c]]
      | p :: ps => (c :: p) :: ps

/-- Embeds Go `strings.Join parts "/"`. -/
def joinSlash : List Str → Str
  | [] => []
  | [s] => s
  | s :: rest => s ++ '/' :: joinSlash rest

/-- Embeds Go `strings.LastIndex s "/"`: `none` models Go's `-1`. -/
def lastIndexSlash : Str → Option Nat
  | [] => none
  | c :: cs =>
    match lastIndexSlash cs with
    | some i => some (i + 1)
    | none => if c = '/' then some 0 else none

/-- The `param` struct of mux.go: one segment descriptor of the variable
part of a pattern (`fixed = true` means a literal segment). -/
structure param where
  name : Str
  fixed : Bool
deriving DecidableEq, Repr

/-- The `Route` struct of mux.go.  The Go field `prefix` is renamed
`staticPrefix` (the Go name is a Lean keyword); `function` is the opaque
handler id. -/
structure Route where
  staticPrefix : Str
  partNames : List param
  function : Nat
deriving DecidableEq, Repr

/-- The `Routes` table of mux.go: `roots` maps a static-prefix key to the
list of routes registered under it (`none` = key absent from the Go map). -/
structure Routes where
  roots : Str → Option (List Route)

/-- `NewRoutes` of mux.go: the empty table. -/
def NewRoutes : Routes := ⟨fun _ => none⟩

/-- The result maps `map[string]string` of mux.go, as an association list. -/
abbrev ParamMap := List (Str × Str)

/-- Go map assignment `m[k] = v`: overwrite the binding if the key is
present, otherwise append it. -/
def mapSet (m : ParamMap) (k v : Str) : ParamMap :=
  if m.any (fun p => p.1 = k) then
    m.map (fun p => if p.1 = k then (k, v) else p)
  else m ++ [(k, v)]

/-- Go map read `m[k]` (with present/absent distinguished). -/
def mapGet (m : ParamMap) (k : Str) : Option Str :=
  (m.find? (fun p => p.1 = k)).map Prod.snd

/-- The component scan of `Routes.Add` (mux.go): walks the split pattern
with the `paramsFound` flag, accumulating static-prefix components on the
left and segment descriptors (`param`) on the right. -/
def scanParts : List Str → Bool → List Str × List param
  | [], _ => ([], [])
  | p :: rest, paramsFound =>
    let found := paramsFound || hasPrefixStr p [':']
    if found then
      let seg : param :=
        if hasPrefixStr p [':'] then ⟨trimPrefixStr p [':'], false⟩ else ⟨p, true⟩
      let rv := scanParts rest found
      (rv.1, seg :: rv.2)
    else
      let rv := scanParts rest found
      (p :: rv.1, rv.2)

/-- `Routes.Add` of mux.go: split the pattern on `/`, scan for the first
`:`-component, join the static components into the key `root`, and append
the new `Route` to the table entry for `root` (Go's `append` on a possibly
missing key). -/
def Routes.Add (r : Routes) (path : Str) (f : Nat) : Routes :=
  let parts := splitSlash path
  let rv := scanParts parts false
  let root := joinSlash rv.1
  ⟨fun k =>
    if k = root then some (((r.roots root).getD []) ++ [⟨root, rv.2, f⟩])
    else r.roots k⟩

/-- Result triple of `Routes.Get` / `matchRoutes`:
`(handler, paramNames, found)`; `none` models Go's `nil` handler. -/
abbrev GetResult := Option Nat × ParamMap × Bool

/-- The inner loop of `matchRoutes` (mux.go): walk `r.partNames` with index
`i`, reading `params[i]` from the UNCLEANED split list; a literal mismatch
returns `none` (Go's `continue outer`), otherwise the built map is returned. -/
def matchParts (params : List Str) : List param → Nat → ParamMap → Option ParamMap
  | [], _, acc => some acc
  | p :: rest, i, acc =>
    if p.fixed then
      if params.getD i [] = p.name then matchParts params rest (i + 1) acc
      else none
    else matchParts params rest (i + 1) (mapSet acc p.name (params.getD i []))

/-- `cleanArray` of mux.go: drop the empty strings. -/
def cleanArray : List Str → List Str
  | [] => []
  | s :: rest => if s = [] then cleanArray rest else s :: cleanArray rest

/-- `matchRoutes` of mux.go: for each candidate route, strip its static
head from the path, strip one leading slash, split on `/`; the length guard
compares the CLEANED list against `partNames`, but values are read from the
uncleaned `params` by `matchParts`. -/
def matchRoutes (path : Str) : List Route → GetResult
  | [] => (none, [], false)
  | r :: rest =>
    let params := splitSlash (trimPrefixStr (trimPrefixStr path r.staticPrefix) ['/'])
    let valid := cleanArray params
    if valid.length = r.partNames.length then
      match matchParts params r.partNames 0 [] with
      | some paramNames => (some r.function, paramNames, true)
      | none => matchRoutes path rest
    else matchRoutes path rest

/-- Indices returned by `lastIndexSlash` are in bounds. -/
theorem lastIndexSlash_lt : ∀ {s : Str} {i : Nat}, lastIndexSlash s = some i → i < s.length := by
  intro s
  induction s with
  | nil => intro i h; simp [lastIndexSlash] at h
  | cons c cs ih =>
    intro i h
    simp only [lastIndexSlash] at h
    cases hcs : lastIndexSlash cs with
    | some j =>
      rw [hcs] at h
      cases h
      exact Nat.succ_lt_succ (ih hcs)
    | none =>
      rw [hcs] at h
      by_cases hc : c = '/'
      · rw [if_pos hc] at h
        cases h
        exact Nat.succ_pos _
      · rw [if_neg hc] at h
        cases h

/-- The loop body of `Routes.Get` (mux.go): look the shrinking `remaining`
up in the table; on a hit, delegate to `matchRoutes`; otherwise stop once
`remaining` has fewer than two characters or no slash, else truncate at the
last slash (or to `"/"` when the last slash is at position 0) and repeat. -/
def getLoop (roots : Str → Option (List Route)) (path : Str) (remaining : Str) : GetResult :=
  match roots remaining with
  | some routes => matchRoutes path routes
  | none =>
    if _hlen : remaining.length < 2 then (none, [], false)
    else
      match hidx : lastIndexSlash remaining with
      | none => (none, [], false)
      | some index =>
        if hpos : index > 0 then getLoop roots path (remaining.take index)
        else getLoop roots path ['/']
termination_by remaining.length
decreasing_by
  · have hb := lastIndexSlash_lt hidx
    simpa [Nat.min_eq_left (Nat.le_of_lt hb)] using hb
  · simp only [List.length_singleton]
    omega

/-- `Routes.Get` of mux.go: run the shrinking-prefix loop starting from the
full path. -/
def Routes.Get (r : Routes) (path : Str) : GetResult := getLoop r.roots path path

/-- Fuel-indexed version of the `Routes.Get` loop: `none` means the fuel ran
out before the loop returned.  Kernel-computable, used to evaluate `Get` on
concrete inputs and to state termination in bounded steps. -/
def getLoopF (roots : Str → Option (List Route)) (path : Str) : Str → Nat → Option GetResult
  | _, 0 => none
  | remaining, fuel + 1 =>
    match roots remaining with
    | some routes => some (matchRoutes path routes)
    | none =>
      if remaining.length < 2 then some (none, [], false)
      else
        match lastIndexSlash remaining with
        | none => some (none, [], false)
        | some index =>
          if index > 0 then getLoopF roots path (remaining.take index) fuel
          else getLoopF roots path ['/'] fuel

/-- With fuel exceeding the length of `remaining`, the fuelled loop returns
exactly the value of the unbounded loop. -/
theorem getLoopF_complete (roots : Str → Option (List Route)) (path : Str) :
    ∀ (fuel : Nat) (remaining : Str), remaining.length < fuel →
      getLoopF roots path remaining fuel = some (getLoop roots path remaining) := by
  intro fuel
  induction fuel with
  | zero => intro remaining h; omega
  | succ n ih =>
    intro remaining h
    rw [getLoop.eq_def]
    simp only [getLoopF]
    cases hr : roots remaining with
    | some routes => simp
    | none =>
      simp only
      by_cases hlen : remaining.length < 2
      · rw [if_pos hlen, dif_pos hlen]
      · rw [if_neg hlen, dif_neg hlen]
        cases hidx : lastIndexSlash remaining with
        | none => simp
        | some index =>
          simp only
          have hb := lastIndexSlash_lt hidx
          by_cases hpos : index > 0
          · rw [if_pos hpos, dif_pos hpos]
            exact ih _ (by simp [Nat.min_eq_left (Nat.le_of_lt hb)]; omega)
          · rw [if_neg hpos, dif_neg hpos]
            exact ih _ (by simp; omega)

/-- Evaluation rule for `Routes.Get` at a concrete table and path. -/
theorem Get_concrete {r : Routes} {p : Str} {v : GetResult}
    (h : getLoopF r.roots p p (p.length + 1) = some v) : r.Get p = v := by
  have h2 := getLoopF_complete r.roots p (p.length + 1) p (Nat.lt_succ_self _)
  rw [h] at h2
  exact (Option.some.inj h2).symm

/-- Position-indexed literal checks over a component list `parts`, following
the spec's wording for §4.3: every literal segment at position `i` must
equal `parts[i]`. -/
def segChecks (parts : List Str) : List param → Nat → Bool
  | [], _ => true
  | p :: rest, i =>
    (!p.fixed || parts.getD i [] = p.name) && segChecks parts rest (i + 1)

/-- Position-indexed parameter bindings over a component list `parts`,
following the spec's wording for §4.3: every variable segment at position
`i` binds `parts[i]` to its name. -/
def segBind (parts : List Str) : List param → Nat → ParamMap → ParamMap
  | [], _, acc => acc
  | p :: rest, i, acc =>
    if p.fixed then segBind parts rest (i + 1) acc
    else segBind parts rest (i + 1) (mapSet acc p.name (parts.getD i []))

/-- Entry matching exactly as the spec's §4.3 words describe it: `parts` is
the CLEANED component list (empty components dropped), and both the length
guard and the per-position checks and bindings read from that cleaned list. -/
def matchRoutesSpec (path : Str) : List Route → GetResult
  | [] => (none, [], false)
  | r :: rest =>
    let parts := cleanArray (splitSlash (trimPrefixStr (trimPrefixStr path r.staticPrefix) ['/']))
    if parts.length = r.partNames.length ∧ segChecks parts r.partNames 0 = true then
      (some r.function, segBind parts r.partNames 0 [], true)
    else matchRoutesSpec path rest

/-- Entry matching as the spec's words amended to fit the code: the length
guard compares the CLEANED list, but the per-position literal checks and
variable bindings read `params[i]` from the UNCLEANED split list. -/
def matchRoutesAmended (path : Str) : List Route → GetResult
  | [] => (none, [], false)
  | r :: rest =>
    let params := splitSlash (trimPrefixStr (trimPrefixStr path r.staticPrefix) ['/'])
    if (cleanArray params).length = r.partNames.length ∧ segChecks params r.partNames 0 = true then
      (some r.function, segBind params r.partNames 0 [], true)
    else matchRoutesAmended path rest

/-- The loop of `matchParts` succeeds exactly when every literal check
passes, and then returns the position-indexed bindings. -/
theorem matchParts_eq (params : List Str) :
    ∀ (l : List param) (i : Nat) (acc : ParamMap),
      matchParts params l i acc =
        if segChecks params l i = true then some (segBind params l i acc) else none := by
  intro l
  induction l with
  | nil => intro i acc; simp [matchParts, segChecks, segBind]
  | cons p rest ih =>
    intro i acc
    by_cases hf : p.fixed
    · by_cases he : params[i]?.getD [] = p.name
      · simp [matchParts, segChecks, segBind, hf, he, ih]
      · simp [matchParts, segChecks, segBind, hf, he]
    · simp [matchParts, segChecks, segBind, hf, ih]

/-- C1 (counterexample): register `/a/:x` and look up `/a//b`.  The cleaned
component list is `["b"]`, so by the claim the variable `x` would be bound
to `"b"`; the code instead binds `x` to `params[0] = ""` from the uncleaned
split list, so matching also disagrees with the spec-worded
`matchRoutesSpec` at this input. -/
theorem c1_counterexample :
    (NewRoutes.Add (str "/a/:x") 0).Get (str "/a//b") = (some 0, [(str "x", [])], true)
    ∧ cleanArray (splitSlash (trimPrefixStr (trimPrefixStr (str "/a//b") (str "/a")) ['/']))
        = [str "b"]
    ∧ matchRoutesSpec (str "/a//b") [⟨str "/a", [⟨str "x", false⟩], 0⟩]
        = (some 0, [(str "x", str "b")], true)
    ∧ (str "x", str "b") ∉ [((str "x" : Str), ([] : Str))] :=
  ⟨Get_concrete (by decide), by decide, by decide, by decide⟩

/-- C1: entry matching strips the staticPrefix, strips one leading slash,
splits on `/` and drops empty components for the length guard, but the
per-position literal checks and variable bindings read `params[i]` from the
UNCLEANED split list, not from the cleaned one: `matchRoutes` coincides with
`matchRoutesAmended` (and, by `c1_counterexample`, not with the
claim-worded `matchRoutesSpec`). -/
theorem c1_match_binds_uncleaned (path : Str) (routes : List Route) :
    matchRoutes path routes = matchRoutesAmended path routes := by
  induction routes with
  | nil => rfl
  | cons r rest ih =>
    simp only [matchRoutes, matchRoutesAmended, matchParts_eq]
    by_cases hc : segChecks (splitSlash (trimPrefixStr (trimPrefixStr path r.staticPrefix) ['/']))
        r.partNames 0 = true
    · by_cases hg : (cleanArray (splitSlash (trimPrefixStr (trimPrefixStr path r.staticPrefix)
          ['/']))).length = r.partNames.length
      · simp [hg, hc]
      · simp [hg, hc, ih]
    · simp [hc, ih]

/-- C6: after registering `/users/:id/edit`, a lookup of `/users/7/edit`
matches with `id` bound to `7`, while `/users/7/delete` is rejected by the
trailing literal segment. -/
theorem c6_trailing_literal :
    (NewRoutes.Add (str "/users/:id/edit") 7).Get (str "/users/7/edit")
      = (some 7, [(str "id", str "7")], true)
    ∧ (NewRoutes.Add (str "/users/:id/edit") 7).Get (str "/users/7/delete")
      = (none, [], false) :=
  ⟨Get_concrete (by decide), Get_concrete (by decide)⟩

/-- C7: the lookup loop of `Routes.Get` terminates for every table and
path, in at most `path.length + 1` iterations: the fuelled loop with that
much fuel never exhausts its fuel and returns exactly the value of `Get`. -/
theorem c7_get_terminates (r : Routes) (path : Str) :
    getLoopF r.roots path path (path.length + 1) = some (r.Get path) :=
  getLoopF_complete r.roots path (path.length + 1) path (Nat.lt_succ_self _)

/-- C2: the moment the shrinking `remaining` is a key of the table, the
loop of `Routes.Get` returns the result of matching that key's entry list
and nothing else — in particular, if none of those entries match, the
not-found result of `matchRoutes` is returned without trying any shorter
prefix, whatever else the table contains. -/
theorem c2_found_key_is_final (roots : Str → Option (List Route)) (path remaining : Str)
    (rs : List Route) (h : roots remaining = some rs) :
    getLoop roots path remaining = matchRoutes path rs := by
  rw [getLoop.eq_def, h]

/-- C2 (witness): a table whose only key is `/a/b`, holding one entry that
does not match the path `/a/b/c/d`; the loop finds the key `/a/b` and
returns that list's not-found result even though the claim's shorter-prefix
continuation would have been possible. -/
theorem c2_witness :
    getLoop (fun k => if k = str "/a/b" then some [⟨str "/a/b", [⟨str "x", false⟩, ⟨str "y", false⟩], 3⟩] else none)
        (str "/a/b/c") (str "/a/b")
      = matchRoutes (str "/a/b/c") [⟨str "/a/b", [⟨str "x", false⟩, ⟨str "y", false⟩], 3⟩] :=
  c2_found_key_is_final _ (str "/a/b/c") (str "/a/b") _ (by decide)

/-- Whenever `matchRoutes` reports found = false, it returns exactly the
`(nil, nil, false)` triple. -/
theorem matchRoutes_notFound (path : Str) : ∀ rs : List Route,
    (matchRoutes path rs).2.2 = false → matchRoutes path rs = (none, [], false) := by
  intro rs
  induction rs with
  | nil => intro _; rfl
  | cons r rest ih =>
    intro h
    simp only [matchRoutes] at h ⊢
    by_cases hg : (cleanArray (splitSlash (trimPrefixStr (trimPrefixStr path r.staticPrefix)
        ['/']))).length = r.partNames.length
    · rw [if_pos hg] at h ⊢
      cases hm : matchParts (splitSlash (trimPrefixStr (trimPrefixStr path r.staticPrefix)
          ['/'])) r.partNames 0 [] with
      | some m => rw [hm] at h; simp at h
      | none => rw [hm] at h; exact ih h
    · rw [if_neg hg] at h ⊢
      exact ih h

/-- One unfolding of the `Routes.Get` loop, with the branch structure
written without dependent matches. -/
theorem getLoop_step (roots : Str → Option (List Route)) (path remaining : Str) :
    getLoop roots path remaining =
      match roots remaining with
      | some routes => matchRoutes path routes
      | none =>
        if remaining.length < 2 then (none, [], false)
        else
          match lastIndexSlash remaining with
          | none => (none, [], false)
          | some index =>
            if index > 0 then getLoop roots path (remaining.take index)
            else getLoop roots path ['/'] := by
  rw [getLoop.eq_def]
  cases hr : roots remaining with
  | some routes => rfl
  | none =>
    by_cases h2 : remaining.length < 2
    · simp [h2]
    · simp only [dif_neg h2, if_neg h2]
      cases hi : lastIndexSlash remaining with
      | none => rfl
      | some index =>
        by_cases hp : index > 0
        · simp [hp]
        · simp [hp]

/-- Whenever the `Routes.Get` loop reports found = false, it returns exactly
the `(nil, nil, false)` triple. -/
theorem getLoop_notFound (roots : Str → Option (List Route)) (path : Str) (remaining : Str)
    (h : (getLoop roots path remaining).2.2 = false) :
    getLoop roots path remaining = (none, [], false) := by
  induction remaining using getLoop.induct roots path with
  | case1 x routes hx =>
    rw [getLoop_step, hx] at h ⊢
    exact matchRoutes_notFound path routes h
  | case2 x hx hlen =>
    rw [getLoop_step, hx]
    simp [hlen]
  | case3 x hx hlen hidx =>
    rw [getLoop_step, hx]
    simp [if_neg hlen, hidx]
  | case4 x hx hlen index hidx hpos ih =>
    rw [getLoop_step, hx] at h ⊢
    simp only [if_neg hlen, hidx, if_pos hpos] at h ⊢
    exact ih h
  | case5 x hx hlen index hidx hpos ih =>
    rw [getLoop_step, hx] at h ⊢
    simp only [if_neg hlen, hidx, if_neg hpos] at h ⊢
    exact ih h

/-- Every string is a `hasPrefixStr` of itself. -/
theorem hasPrefixStr_refl : ∀ s : Str, hasPrefixStr s s = true := by
  intro s
  induction s with
  | nil => rfl
  | cons c cs ih => simp [hasPrefixStr, ih]

/-- Trimming a string from itself leaves the empty string. -/
theorem trimPrefixStr_self (s : Str) : trimPrefixStr s s = [] := by
  simp [trimPrefixStr, hasPrefixStr_refl]

/-- Matching a key's own string against its entry list: when every entry
carries that key as its static head (as registration guarantees) and some
entry has an empty segment list, the first such entry matches with an empty
binding map. -/
theorem matchRoutes_own_key (K : Str) : ∀ rs : List Route,
    (∀ e ∈ rs, e.staticPrefix = K) → (∃ e ∈ rs, e.partNames = []) →
    ∃ h, matchRoutes K rs = (some h, [], true) := by
  intro rs
  induction rs with
  | nil => intro _ hex; simp at hex
  | cons e rest ih =>
    intro hall hex
    have he : e.staticPrefix = K := hall e (by simp)
    have hparams : splitSlash (trimPrefixStr (trimPrefixStr K e.staticPrefix) ['/']) = [[]] := by
      rw [he, trimPrefixStr_self]
      rfl
    by_cases hpn : e.partNames = []
    · exact ⟨e.function, by simp [matchRoutes, hparams, hpn, cleanArray, matchParts]⟩
    · have hrec : matchRoutes K (e :: rest) = matchRoutes K rest := by
        simp only [matchRoutes, hparams]
        rw [if_neg]
        simp [cleanArray]
        intro hc
        exact hpn (List.length_eq_zero.mp hc.symm)
      rw [hrec]
      refine ih (fun e2 he2 => hall e2 (by simp [he2])) ?_
      obtain ⟨e2, he2, hpn2⟩ := hex
      rcases List.mem_cons.mp he2 with h1 | h1
      · exact absurd (h1 ▸ hpn2) hpn
      · exact ⟨e2, h1, hpn2⟩

/-- C3 (counterexample): the pattern `/a` has no parameter components, yet
after registering it, `Get` on the DIFFERENT path `/a/` (a trailing slash)
also returns found = true, contradicting the claim that every path other
than the exact literal returns found = false. -/
theorem c3_counterexample :
    (NewRoutes.Add (str "/a") 0).Get (str "/a/") = (some 0, [], true)
    ∧ str "/a/" ≠ str "/a" :=
  ⟨Get_concrete (by decide), by decide⟩

/-- C3 (amended): for any table and key `K` whose entry list consists of
entries with static head `K` (as registration produces) and contains an
entry with no parameter segments — i.e. a registered literal pattern `K` —
`Get K` returns found = true with an empty parameter mapping.  The claim's
second half is dropped: by `c3_counterexample`, other paths (e.g. the
pattern plus a trailing slash) can also return found = true. -/
theorem c3_literal_pattern_exact_match (r : Routes) (K : Str) (rs : List Route)
    (h1 : r.roots K = some rs)
    (h2 : ∀ e ∈ rs, e.staticPrefix = K)
    (h3 : ∃ e ∈ rs, e.partNames = []) :
    (r.Get K).1.isSome = true ∧ (r.Get K).2.1 = [] ∧ (r.Get K).2.2 = true := by
  obtain ⟨h, hm⟩ := matchRoutes_own_key K rs h2 h3
  have hg : r.Get K = (some h, [], true) := by
    rw [Routes.Get, getLoop_step, h1]
    exact hm
  simp [hg]

/-- C3 (witness): instantiated at the table holding only the literal
pattern `/a`. -/
theorem c3_witness :
    ((NewRoutes.Add (str "/a") 0).Get (str "/a")).1.isSome = true
    ∧ ((NewRoutes.Add (str "/a") 0).Get (str "/a")).2.1 = []
    ∧ ((NewRoutes.Add (str "/a") 0).Get (str "/a")).2.2 = true :=
  c3_literal_pattern_exact_match (NewRoutes.Add (str "/a") 0) (str "/a")
    [⟨str "/a", [], 0⟩] (by decide) (by decide) (by decide)

/-- C5 (counterexample): the table produced by registering the pattern `/`
answers `Get "/"` with found = true but `Get ""` with found = false, so
`Get ""` does not behave identically to `Get "/"` for every table the
registration algorithm produces. -/
theorem c5_counterexample :
    (NewRoutes.Add (str "/") 0).Get (str "/") = (some 0, [], true)
    ∧ (NewRoutes.Add (str "/") 0).Get [] = (none, [], false) :=
  ⟨Get_concrete (by decide), Get_concrete (by decide)⟩

/-- C5 (amended): `Get "/"` on the empty table returns
`(nil, nil, false)`; and whenever neither `""` nor `"/"` is a key of the
table, `Get ""` and `Get "/"` agree — both return `(nil, nil, false)`
immediately (their lengths are below 2).  They can differ when one of those
two strings is a registered key (`c5_counterexample`). -/
theorem c5_root_lookups (r : Routes) (h0 : r.roots [] = none) (h1 : r.roots ['/'] = none) :
    r.Get [] = (none, [], false) ∧ r.Get ['/'] = (none, [], false)
    ∧ NewRoutes.Get ['/'] = (none, [], false) := by
  refine ⟨?_, ?_, Get_concrete (by decide)⟩
  · rw [Routes.Get, getLoop_step, h0]
    simp
  · rw [Routes.Get, getLoop_step, h1]
    simp

/-- C5 (witness): instantiated at the table holding only the pattern `/a`,
whose sole key is `/a`. -/
theorem c5_witness :
    (NewRoutes.Add (str "/a") 0).Get [] = (none, [], false)
    ∧ (NewRoutes.Add (str "/a") 0).Get ['/'] = (none, [], false)
    ∧ NewRoutes.Get ['/'] = (none, [], false) :=
  c5_root_lookups (NewRoutes.Add (str "/a") 0) (by decide) (by decide)

/-- The cleaned list is never longer than the list it came from. -/
theorem cleanArray_length_le : ∀ a : List Str, (cleanArray a).length ≤ a.length := by
  intro a
  induction a with
  | nil => simp [cleanArray]
  | cons s rest ih =>
    by_cases hs : s = []
    · simp [cleanArray, hs]
      omega
    · simp [cleanArray, hs]
      omega

/-- C10: under `matchRoutes`' length guard — the cleaned component list of
an entry is as long as its segment list — every index `i` used by the inner
loop (`i < partNames.length`) is a valid index into the uncleaned split
list `params`, because cleaning never lengthens a list; hence the `params[i]`
reads of the Go loop are in bounds. -/
theorem c10_no_out_of_bounds (path : Str) (e : Route) (i : Nat)
    (hguard : (cleanArray (splitSlash (trimPrefixStr (trimPrefixStr path e.staticPrefix)
      ['/']))).length = e.partNames.length)
    (hi : i < e.partNames.length) :
    i < (splitSlash (trimPrefixStr (trimPrefixStr path e.staticPrefix) ['/'])).length := by
  have hle := cleanArray_length_le (splitSlash (trimPrefixStr (trimPrefixStr path e.staticPrefix)
    ['/']))
  omega

/-- C10 (witness): instantiated at path `/a/b` against the entry registered
from `/a/:x`. -/
theorem c10_witness :
    ((cleanArray (splitSlash (trimPrefixStr (trimPrefixStr (str "/a/b")
        (Route.staticPrefix ⟨str "/a", [⟨str "x", false⟩], 0⟩)) ['/']))).length
      = (Route.partNames ⟨str "/a", [⟨str "x", false⟩], 0⟩).length)
    ∧ 0 < (splitSlash (trimPrefixStr (trimPrefixStr (str "/a/b")
        (Route.staticPrefix ⟨str "/a", [⟨str "x", false⟩], 0⟩)) ['/'])).length :=
  ⟨by decide, c10_no_out_of_bounds (str "/a/b") ⟨str "/a", [⟨str "x", false⟩], 0⟩ 0
    (by decide) (by decide)⟩

/-- The `Router` struct of router.go, restricted to what the route tables
depend on: `handlerBuilt` models whether `r.handler` is non-nil (i.e.
`buildHandler` has run); the middleware stack and the request-scoped
`params` history never touch the route tables and are not modelled. -/
structure Router where
  handlerBuilt : Bool
  routes : Str → Option Routes

/-- `NewRouter` of router.go: one empty `Routes` table per supported HTTP
method. -/
def NewRouter : Router :=
  { handlerBuilt := false
    routes := fun m =>
      if m = str "GET" then some NewRoutes
      else if m = str "POST" then some NewRoutes
      else if m = str "PUT" then some NewRoutes
      else if m = str "DELETE" then some NewRoutes
      else if m = str "PATCH" then some NewRoutes
      else if m = str "OPTIONS" then some NewRoutes
      else if m = str "HEAD" then some NewRoutes
      else none }

/-- `Router.Register` of router.go: build the middleware handler if absent,
look the method up, return an error (modelled as `true`) for an unknown
method, otherwise add the pattern to that method's table.  The first
component is the mutated receiver. -/
def Router.Register (r : Router) (method path : Str) (f : Nat) : Router × Bool :=
  let r1 := if r.handlerBuilt then r else { r with handlerBuilt := true }
  match r1.routes method with
  | none => (r1, true)
  | some rts =>
    ({ r1 with routes := fun m => if m = method then some (rts.Add path f) else r1.routes m },
      false)

/-- The fixed method set installed by `NewRouter`. -/
def validMethod (m : Str) : Bool :=
  m = str "GET" || m = str "POST" || m = str "PUT" || m = str "DELETE" ||
  m = str "PATCH" || m = str "OPTIONS" || m = str "HEAD"

/-- Routers reachable from `NewRouter` by `Register` calls. -/
inductive Reachable : Router → Prop
  | base : Reachable NewRouter
  | step (r : Router) (m p : Str) (f : Nat) :
      Reachable r → Reachable (Router.Register r m p f).1

/-- Building the middleware handler leaves the route tables untouched. -/
theorem register_routes_aux (r : Router) :
    (if r.handlerBuilt then r else { r with handlerBuilt := true }).routes = r.routes := by
  by_cases h : r.handlerBuilt <;> simp [h]

/-- Along every `Register` chain from `NewRouter`, the key set of the
method map stays exactly the seven valid methods. -/
theorem reachable_domain {r : Router} (hr : Reachable r) :
    ∀ m, (r.routes m).isSome = validMethod m := by
  induction hr with
  | base =>
    intro m
    simp only [NewRouter]
    split_ifs <;> simp_all [validMethod]
  | step r m p f hr ih =>
    intro m2
    cases hm : r.routes m with
    | none =>
      simp only [Router.Register, register_routes_aux, hm]
      exact ih m2
    | some rts =>
      have hv : validMethod m = true := by rw [← ih m, hm]; rfl
      by_cases h2 : m2 = m
      · subst h2
        simp [Router.Register, register_routes_aux, hm, hv]
      · simp only [Router.Register, register_routes_aux, hm]
        simp only [if_neg h2]
        exact ih m2

/-- C4: `Register` errors exactly on methods outside the fixed set
{GET, POST, PUT, DELETE, PATCH, OPTIONS, HEAD}, and an erroring `Register`
leaves every route table unchanged; `Get` never fails — whenever it reports
found = false it returns the plain `(nil, nil, false)` triple, not an
error. -/
theorem c4_register_error_iff (r : Router) (m p : Str) (f : Nat) (hr : Reachable r) :
    ((r.Register m p f).2 = true ↔ validMethod m = false)
    ∧ ((r.Register m p f).2 = true → ∀ m2, (r.Register m p f).1.routes m2 = r.routes m2)
    ∧ ∀ (rt : Routes) (q : Str), (rt.Get q).2.2 = false → rt.Get q = (none, [], false) := by
  have hd := reachable_domain hr m
  refine ⟨?_, ?_, fun rt q h => getLoop_notFound rt.roots q q h⟩
  · cases hm : r.routes m with
    | none =>
      rw [hm] at hd
      simp only [Router.Register, register_routes_aux, hm]
      simpa using hd.symm
    | some rts =>
      rw [hm] at hd
      simp only [Router.Register, register_routes_aux, hm]
      simp at hd
      simp [hd]
  · intro herr m2
    cases hm : r.routes m with
    | none =>
      simp only [Router.Register, register_routes_aux, hm]
    | some rts =>
      exfalso
      simp [Router.Register, register_routes_aux, hm] at herr

/-- C4 (witness): instantiated at `NewRouter` and the unknown method
`FOO`: the registration errors and the GET table is untouched. -/
theorem c4_witness :
    ((NewRouter.Register (str "FOO") (str "/x") 0).2 = true
      ↔ validMethod (str "FOO") = false)
    ∧ (NewRouter.Register (str "FOO") (str "/x") 0).1.routes (str "GET")
      = NewRouter.routes (str "GET") :=
  ⟨(c4_register_error_iff NewRouter (str "FOO") (str "/x") 0 Reachable.base).1,
    (c4_register_error_iff NewRouter (str "FOO") (str "/x") 0 Reachable.base).2.1
      (by decide) (str "GET")⟩

/-- State-threaded translation of the `Routes.Get` loop (mux.go): the
receiver is threaded through the loop and handed back at every return site,
making it explicit that the Go method performs no write to the table. -/
def getLoopSt (r : Routes) (path remaining : Str) : Routes × GetResult :=
  match r.roots remaining with
  | some routes => (r, matchRoutes path routes)
  | none =>
    if _hlen : remaining.length < 2 then (r, (none, [], false))
    else
      match hidx : lastIndexSlash remaining with
      | none => (r, (none, [], false))
      | some index =>
        if hpos : index > 0 then getLoopSt r path (remaining.take index)
        else getLoopSt r path ['/']
termination_by remaining.length
decreasing_by
  · have hb := lastIndexSlash_lt hidx
    simpa [Nat.min_eq_left (Nat.le_of_lt hb)] using hb
  · simp only [List.length_singleton]
    omega

/-- State-threaded `Routes.Get`. -/
def Routes.GetSt (r : Routes) (path : Str) : Routes × GetResult := getLoopSt r path path

/-- One unfolding of the state-threaded loop, without dependent matches. -/
theorem getLoopSt_step (r : Routes) (path remaining : Str) :
    getLoopSt r path remaining =
      match r.roots remaining with
      | some routes => (r, matchRoutes path routes)
      | none =>
        if remaining.length < 2 then (r, (none, [], false))
        else
          match lastIndexSlash remaining with
          | none => (r, (none, [], false))
          | some index =>
            if index > 0 then getLoopSt r path (remaining.take index)
            else getLoopSt r path ['/'] := by
  rw [getLoopSt.eq_def]
  cases hr : r.roots remaining with
  | some routes => rfl
  | none =>
    by_cases h2 : remaining.length < 2
    · simp [h2]
    · simp only [dif_neg h2, if_neg h2]
      cases hi : lastIndexSlash remaining with
      | none => rfl
      | some index =>
        by_cases hp : index > 0
        · simp [hp]
        · simp [hp]

/-- The state-threaded loop returns the table unchanged, paired with the
value of the plain loop. -/
theorem getLoopSt_eq (r : Routes) (path : Str) :
    ∀ remaining : Str, getLoopSt r path remaining = (r, getLoop r.roots path remaining) := by
  intro remaining
  induction remaining using getLoopSt.induct r path with
  | case1 x routes hx =>
    rw [getLoopSt_step, getLoop_step, hx]
  | case2 x hx hlen =>
    rw [getLoopSt_step, getLoop_step, hx]
    simp [hlen]
  | case3 x hx hlen hidx =>
    rw [getLoopSt_step, getLoop_step, hx]
    simp [if_neg hlen, hidx]
  | case4 x hx hlen index hidx hpos ih =>
    rw [getLoopSt_step, getLoop_step, hx]
    simp only [if_neg hlen, hidx, if_pos hpos]
    exact ih
  | case5 x hx hlen index hidx hpos ih =>
    rw [getLoopSt_step, getLoop_step, hx]
    simp only [if_neg hlen, hidx, if_neg hpos]
    exact ih

/-- C8: lookup is pure — the state-threaded `GetSt` hands the table back
unchanged together with exactly the value of `Get`, so a second call on the
table state left behind by the first returns the same result. -/
theorem c8_get_pure (r : Routes) (path : Str) :
    (r.GetSt path).1 = r
    ∧ (r.GetSt path).2 = r.Get path
    ∧ ((r.GetSt path).1.GetSt path).2 = (r.GetSt path).2 := by
  have h := getLoopSt_eq r path path
  exact ⟨by simp [Routes.GetSt, h], by simp [Routes.GetSt, Routes.Get, h],
    by simp [Routes.GetSt, h]⟩

/-- Truncating a non-empty list at a positive index leaves it non-empty. -/
theorem take_pos_ne_nil {x : Str} {index : Nat} (hx : x ≠ []) (hpos : index > 0) :
    x.take index ≠ [] := by
  cases x with
  | nil => exact absurd rfl hx
  | cons c t =>
    cases index with
    | zero => omega
    | succ n => simp

/-- The `Get` loop started from a non-empty `remaining` never consults the
empty-string key: two tables agreeing on all non-empty keys give the same
loop value. -/
theorem getLoop_agree (r1 r2 : Str → Option (List Route)) (path : Str)
    (hagree : ∀ k : Str, k ≠ [] → r1 k = r2 k) :
    ∀ remaining : Str, remaining ≠ [] →
      getLoop r1 path remaining = getLoop r2 path remaining := by
  intro remaining
  induction remaining using getLoop.induct r1 path with
  | case1 x routes hx =>
    intro hne
    rw [getLoop_step r1, getLoop_step r2, hx, ← hagree x hne, hx]
  | case2 x hx hlen =>
    intro hne
    rw [getLoop_step r1, getLoop_step r2, hx, ← hagree x hne, hx]
    simp [hlen]
  | case3 x hx hlen hidx =>
    intro hne
    rw [getLoop_step r1, getLoop_step r2, hx, ← hagree x hne, hx]
    simp [if_neg hlen, hidx]
  | case4 x hx hlen index hidx hpos ih =>
    intro hne
    rw [getLoop_step r1, getLoop_step r2, hx, ← hagree x hne, hx]
    simp only [if_neg hlen, hidx, if_pos hpos]
    exact ih (take_pos_ne_nil hne hpos)
  | case5 x hx hlen index hidx hpos ih =>
    intro hne
    rw [getLoop_step r1, getLoop_step r2, hx, ← hagree x hne, hx]
    simp only [if_neg hlen, hidx, if_neg hpos]
    exact ih (by simp)

/-- C9: a pattern whose first non-empty component is a parameter (`/:id`
or `:id`) is stored under the empty-string static-prefix key, and that key
is invisible to every lookup of a non-empty path: `Get` on a non-empty path
returns the same result on any two tables that agree outside the empty
key — so entries under the empty key can only ever be reached by
`Get ""`. -/
theorem c9_empty_key_unreachable (r1 r2 : Routes)
    (hagree : ∀ k : Str, k ≠ [] → r1.roots k = r2.roots k)
    (path : Str) (hp : path ≠ []) :
    r1.Get path = r2.Get path
    ∧ ((NewRoutes.Add (str "/:id") 5).roots []).isSome = true
    ∧ ((NewRoutes.Add (str ":id") 5).roots []).isSome = true :=
  ⟨getLoop_agree r1.roots r2.roots path hagree path hp, by decide, by decide⟩

/-- C9 (witness): the table holding only `:id` (stored under the empty-string
key) answers the non-empty path `/x` exactly like the empty table. -/
theorem c9_witness :
    (NewRoutes.Add (str ":id") 5).Get (str "/x") = NewRoutes.Get (str "/x")
    ∧ ((NewRoutes.Add (str "/:id") 5).roots []).isSome = true
    ∧ ((NewRoutes.Add (str ":id") 5).roots []).isSome = true :=
  c9_empty_key_unreachable (NewRoutes.Add (str ":id") 5) NewRoutes
    (fun k hk => by
      have hroot : joinSlash (scanParts (splitSlash (str ":id")) false).1 = [] := by decide
      simp [Routes.Add, NewRoutes, hroot, hk])
    (str "/x") (by decide)

end Mux
